import Mathlib

/-!
Shallow embedding of the WormSim core (src/main.py): the neuron-layout
construction, the food-proximity pass, and the speed easing of the
locomotion controller, modelled in exact arithmetic (ℚ/ℤ where the code
is exact integer/float arithmetic without transcendentals, ℝ elsewhere).
-/

/-- Embeds `WormSimulation.initialize_neuron_positions` (src/main.py lines
60-76).  `rows = int(math.sqrt(len(neurons)))`, `cols = ceil(len/rows)`;
when `rows = 0` (empty identifier list) Python raises `ZeroDivisionError`
at the `cols` computation, modelled as `none`.  Positions:
`x = (i % cols + 1) * width / (cols + 1)`,
`y = (i / cols + 1) * height / (rows + 1)`. -/
def initialize_neuron_positions (neurons : List String) (width height : ℚ) :
    Option (List (String × ℚ × ℚ)) :=
  let rows := Nat.sqrt neurons.length
  if rows = 0 then none
  else
    let cols := (neurons.length + rows - 1) / rows
    some (neurons.enum.map (fun p =>
      (p.2, ((p.1 % cols : ℕ) + 1 : ℚ) * (width / ((cols : ℚ) + 1)),
            ((p.1 / cols : ℕ) + 1 : ℚ) * (height / ((rows : ℚ) + 1)))))

/-- Squared Euclidean distance from the rounded target `(rx, ry)` to a food
marker; the code compares `math.hypot(rx - fx, ry - fy)` with the radii 20
and 50, which in exact arithmetic is equivalent to comparing the squared
distance with 400 and 2500. -/
def distSq (rx ry : ℤ) (m : ℤ × ℤ) : ℤ := (rx - m.1) ^ 2 + (ry - m.2) ^ 2

/-- Whether a marker is within the sensing radius 50 (`distance <= 50`). -/
def sensedB (rx ry : ℤ) (m : ℤ × ℤ) : Bool := distSq rx ry m ≤ 2500

/-- One iteration of the food loop body (src/main.py lines 160-165): if the
marker is within distance 50 the stimulus flag is set, and if additionally
within distance 20 the marker is removed (`list.remove`: first occurrence)
from the current food list. -/
def foodStep (rx ry : ℤ) (st : List (ℤ × ℤ) × Bool) (m : ℤ × ℤ) :
    List (ℤ × ℤ) × Bool :=
  if distSq rx ry m ≤ 2500 then
    (if distSq rx ry m ≤ 400 then st.1.erase m else st.1, true)
  else st

/-- The food-proximity pass of `WormSimulation.update`: iterate over a
snapshot (`self.food[:]`) of the food list while mutating the live list. -/
def foodPass (rx ry : ℤ) (food : List (ℤ × ℤ)) (flag : Bool) :
    List (ℤ × ℤ) × Bool :=
  food.foldl (foodStep rx ry) (food, flag)

/-- Speed easing: `update_brain` sets
`speed_change_interval = (target_speed - speed) / 30` and `update` then
performs `speed += speed_change_interval` (src/main.py lines 135, 138). -/
def speedEase (targetSpeed speed : ℚ) : ℚ :=
  speed + (targetSpeed - speed) / 30

/-- One tick of the speed state for motor accumulator inputs `(l, r)`:
`target_speed = (|l| + |r|) / 100` recomputed by `update_brain`, then the
easing step (src/main.py lines 134-135, 138). -/
def speedTick (s : ℚ) (acc : ℚ × ℚ) : ℚ :=
  speedEase ((|acc.1| + |acc.2|) / 100) s

/-- Speed after running a list of per-tick motor inputs from `speed = 0`. -/
def speedRun (inputs : List (ℚ × ℚ)) : ℚ := inputs.foldl speedTick 0

section FoodLemmas

/-- Unfolding equation for one loop-body application. -/
lemma foodStep_eq (rx ry : ℤ) (cur : List (ℤ × ℤ)) (flag : Bool)
    (a : ℤ × ℤ) :
    foodStep rx ry (cur, flag) a =
      if distSq rx ry a ≤ 2500 then
        (if distSq rx ry a ≤ 400 then cur.erase a else cur, true)
      else (cur, flag) := rfl

/-- Count of a marker in the live list after folding the loop body over a
snapshot: each snapshot occurrence of a consumed marker erases one
occurrence (`List.remove` semantics). -/
lemma foodFold_count (rx ry : ℤ) (snap : List (ℤ × ℤ)) :
    ∀ (cur : List (ℤ × ℤ)) (flag : Bool) (m : ℤ × ℤ),
      ((snap.foldl (foodStep rx ry) (cur, flag)).1).count m =
        cur.count m - (if distSq rx ry m ≤ 400 then snap.count m else 0) := by
  induction snap with
  | nil => intro cur flag m; simp
  | cons a snap ih =>
    intro cur flag m
    rw [List.foldl_cons, foodStep_eq]
    by_cases hs : distSq rx ry a ≤ 2500
    · rw [if_pos hs]
      by_cases hc : distSq rx ry a ≤ 400
      · rw [if_pos hc, ih]
        by_cases hm : m = a
        · subst hm
          simp only [if_pos hc, List.count_erase_self, List.count_cons_self]
          omega
        · rw [List.count_erase_of_ne hm, List.count_cons_of_ne hm]
      · rw [if_neg hc, ih]
        by_cases hm : m = a
        · subst hm; simp only [if_neg hc]
        · rw [List.count_cons_of_ne hm]
    · rw [if_neg hs, ih]
      have hc : ¬ distSq rx ry a ≤ 400 := fun h => hs (le_trans h (by norm_num))
      by_cases hm : m = a
      · subst hm; simp only [if_neg hc]
      · rw [List.count_cons_of_ne hm]

/-- The stimulus flag after the pass is the old flag OR-ed with "some
snapshot marker is within distance 50". -/
lemma foodFold_flag (rx ry : ℤ) (snap : List (ℤ × ℤ)) :
    ∀ (cur : List (ℤ × ℤ)) (flag : Bool),
      (snap.foldl (foodStep rx ry) (cur, flag)).2 =
        (flag || snap.any (sensedB rx ry)) := by
  induction snap with
  | nil => intro cur flag; simp
  | cons a snap ih =>
    intro cur flag
    rw [List.foldl_cons, foodStep_eq]
    by_cases hs : distSq rx ry a ≤ 2500
    · rw [if_pos hs]
      by_cases hc : distSq rx ry a ≤ 400
      · rw [if_pos hc, ih]
        simp [List.any_cons, sensedB, hs]
      · rw [if_neg hc, ih]
        simp [List.any_cons, sensedB, hs]
    · rw [if_neg hs, ih]
      simp [List.any_cons, sensedB, hs]

end FoodLemmas

/-- C5: For every food marker present at the start of a tick: if its
distance from the rounded target is at most 20 (squared distance ≤ 400) it
is removed from the food collection during the tick; if the distance is in
(20, 50] it remains but the stimulus flag is set; if the distance is greater
than 50 it remains, and the final flag is exactly the old flag OR-ed with
the existence of some marker within distance 50 (so a marker beyond 50
never sets it). -/
theorem food_consumption (rx ry : ℤ) (food : List (ℤ × ℤ)) (flag : Bool)
    (m : ℤ × ℤ) (hm : m ∈ food) :
    (distSq rx ry m ≤ 400 → m ∉ (foodPass rx ry food flag).1) ∧
    (400 < distSq rx ry m → m ∈ (foodPass rx ry food flag).1) ∧
    (distSq rx ry m ≤ 2500 → (foodPass rx ry food flag).2 = true) ∧
    (foodPass rx ry food flag).2 = (flag || food.any (sensedB rx ry)) := by
  have hcount := foodFold_count rx ry food food flag m
  have hflag := foodFold_flag rx ry food food flag
  unfold foodPass
  refine ⟨?_, ?_, ?_, hflag⟩
  · intro hc
    rw [if_pos hc, Nat.sub_self] at hcount
    exact List.count_eq_zero.mp hcount
  · intro hc
    rw [if_neg (by omega), Nat.sub_zero] at hcount
    have : 0 < ((food.foldl (foodStep rx ry) (food, flag)).1).count m := by
      rw [hcount]; exact List.count_pos_iff.mpr hm
    exact List.count_pos_iff.mp this
  · intro hs
    rw [hflag]
    have : food.any (sensedB rx ry) = true :=
      List.any_eq_true.mpr ⟨m, hm, by simp [sensedB, hs]⟩
    simp [this]

/-- Witness for C5 at a concrete tick: target rounded to (0,0), markers at
distances 10 (consumed), 30 (sensed, kept) and 100 (kept), flag initially
false. -/
theorem food_consumption_witness :
    ((10, 0) : ℤ × ℤ) ∈ ([(10, 0), (30, 0), (100, 0)] : List (ℤ × ℤ)) ∧
    ((distSq 0 0 (10, 0) ≤ 400 →
        ((10, 0) : ℤ × ℤ) ∉ (foodPass 0 0 [(10, 0), (30, 0), (100, 0)] false).1) ∧
     (400 < distSq 0 0 (10, 0) →
        ((10, 0) : ℤ × ℤ) ∈ (foodPass 0 0 [(10, 0), (30, 0), (100, 0)] false).1) ∧
     (distSq 0 0 (10, 0) ≤ 2500 →
        (foodPass 0 0 [(10, 0), (30, 0), (100, 0)] false).2 = true) ∧
     (foodPass 0 0 [(10, 0), (30, 0), (100, 0)] false).2 =
        (false || ([(10, 0), (30, 0), (100, 0)] : List (ℤ × ℤ)).any (sensedB 0 0))) :=
  ⟨by decide, food_consumption 0 0 [(10, 0), (30, 0), (100, 0)] false (10, 0) (by decide)⟩

/-- C6: one easing step moves `speed` toward a fixed `targetSpeed` without
overshoot: the residual shrinks (`|ts - speed'| ≤ |ts - speed|`) and the new
residual has the same sign as the old one (their product is nonnegative), so
`speed` never crosses to the other side of `targetSpeed`. -/
theorem speed_convergence (ts s : ℚ) :
    |ts - speedEase ts s| ≤ |ts - s| ∧
    0 ≤ (ts - s) * (ts - speedEase ts s) := by
  have h : ts - speedEase ts s = (29 / 30) * (ts - s) := by
    unfold speedEase; ring
  constructor
  · rw [h, abs_mul, abs_of_nonneg (by norm_num : (0:ℚ) ≤ 29 / 30)]
    nlinarith [abs_nonneg (ts - s)]
  · rw [h]
    nlinarith [sq_nonneg (ts - s)]

/-- C10: starting from `speed = 0`, speed stays nonnegative under every
sequence of motor accumulator inputs: each tick's new speed is the convex
combination `(29·speed + targetSpeed)/30` with `targetSpeed ≥ 0`. -/
theorem speed_nonneg (inputs : List (ℚ × ℚ)) : 0 ≤ speedRun inputs := by
  suffices h : ∀ (l : List (ℚ × ℚ)) (s : ℚ), 0 ≤ s → 0 ≤ l.foldl speedTick s from
    h inputs 0 le_rfl
  intro l
  induction l with
  | nil => intro s hs; simpa using hs
  | cons a l ih =>
    intro s hs
    rw [List.foldl_cons]
    refine ih _ ?_
    unfold speedTick speedEase
    nlinarith [abs_nonneg a.1, abs_nonneg a.2]

/-- Counterexample to C1 as stated: with an empty identifier list the layout
construction does not return an empty mapping; it fails (Python raises
`ZeroDivisionError` at `cols = math.ceil(len(neurons) / rows)` since
`rows = 0`; there is no `count == 0` guard in the code). -/
theorem initialize_neuron_positions_empty_not_some :
    initialize_neuron_positions [] 100 100 ≠ some [] := by
  simp [initialize_neuron_positions]

/-- C1 (amended): layout construction fails (division by zero) exactly on
the empty identifier list; for every nonempty identifier list it succeeds
without error. -/
theorem initialize_neuron_positions_none_iff (neurons : List String)
    (width height : ℚ) :
    initialize_neuron_positions neurons width height = none ↔ neurons = [] := by
  unfold initialize_neuron_positions
  by_cases h : Nat.sqrt neurons.length = 0
  · rw [if_pos h]
    have : neurons.length = 0 := by
      rcases Nat.eq_zero_or_pos neurons.length with h0 | h0
      · exact h0
      · exact absurd h (by have := Nat.sqrt_pos.mpr h0; omega)
    simp [List.length_eq_zero.mp this]
  · rw [if_neg h]
    have : neurons ≠ [] := by
      intro h0; subst h0; simp at h
    simp [this]

/-!
Heading control and the per-tick position update (src/main.py lines
129-158), in exact real arithmetic.
-/

/-- The `angle_diff` computed by `WormSimulation.update` (src/main.py lines
140-147): the direct difference `facing_dir - target_dir`, seam-corrected by
`±2π` when its magnitude exceeds `π`. -/
noncomputable def angleDiff (facing target : ℝ) : ℝ :=
  if |facing - target| > Real.pi then
    (if facing > target then -(2 * Real.pi - facing + target)
     else 2 * Real.pi - target + facing)
  else facing - target

/-- The heading-correction step (src/main.py lines 149-152): move
`facing_dir` by a fixed `0.1` radians against the sign of `angle_diff`. -/
noncomputable def headingStep (facing target : ℝ) : ℝ :=
  if angleDiff facing target > 0 then facing - 0.1
  else if angleDiff facing target < 0 then facing + 0.1
  else facing

/-- One tick of the facing direction: `update_brain` sets
`target_dir = facing_dir + ((accumleft - accumright) / 20) * π`
(src/main.py lines 132-133), then `update` applies the heading step. -/
noncomputable def facingTick (facing : ℝ) (acc : ℝ × ℝ) : ℝ :=
  headingStep facing (facing + (acc.1 - acc.2) / 20 * Real.pi)

/-- Facing direction after a sequence of per-tick motor accumulator inputs,
starting from `facing_dir = 0` (src/main.py line 41). -/
noncomputable def facingRun (inputs : List (ℝ × ℝ)) : ℝ :=
  inputs.foldl facingTick 0

/-- Each heading step moves the facing direction by exactly `0.1`, `-0.1`
or `0`. -/
lemma headingStep_sub_abs_le (f t : ℝ) : |headingStep f t - f| ≤ 0.1 := by
  unfold headingStep
  split_ifs with h1 h2
  · rw [show f - 0.1 - f = -(0.1 : ℝ) by ring, abs_neg,
      abs_of_nonneg (by norm_num : (0:ℝ) ≤ 0.1)]
  · rw [show f + 0.1 - f = (0.1 : ℝ) by ring,
      abs_of_nonneg (by norm_num : (0:ℝ) ≤ 0.1)]
  · rw [sub_self, abs_zero]; norm_num

/-- When the target direction is exactly `facing + π`, the step increases
the facing direction by `0.1` (the direct difference is `-π`, which does not
exceed `π`, and is negative). -/
lemma headingStep_add_pi (f : ℝ) : headingStep f (f + Real.pi) = f + 0.1 := by
  have had : angleDiff f (f + Real.pi) = -Real.pi := by
    unfold angleDiff
    rw [show f - (f + Real.pi) = -Real.pi by ring]
    rw [if_neg]
    rw [abs_neg, abs_of_nonneg Real.pi_pos.le]
    exact lt_irrefl Real.pi
  unfold headingStep
  rw [had, if_neg (by linarith [Real.pi_pos]), if_pos (by linarith [Real.pi_pos])]

/-- With motor inputs `(20, 0)`, `update_brain` produces
`target_dir = facing + π`, so the facing direction gains `0.1` per tick. -/
lemma facingTick_20 (f : ℝ) : facingTick f (20, 0) = f + 0.1 := by
  show headingStep f (f + ((20:ℝ) - 0) / 20 * Real.pi) = f + 0.1
  rw [show ((20:ℝ) - 0) / 20 * Real.pi = Real.pi by ring]
  exact headingStep_add_pi f

/-- Running `n` ticks of constant input `(20, 0)` adds `n * 0.1` to the
facing direction. -/
lemma facing_replicate (n : ℕ) :
    ∀ f : ℝ, List.foldl facingTick f (List.replicate n ((20:ℝ), (0:ℝ))) =
      f + n * 0.1 := by
  induction n with
  | zero => intro f; simp
  | succ n ih =>
    intro f
    rw [List.replicate_succ, List.foldl_cons, facingTick_20, ih]
    push_cast
    ring

/-- Counterexample to C2 as stated: the code never wraps `facing_dir`, so it
leaves the interval (−π, π].  With the constant motor input
`accumleft = 20, accumright = 0` for 32 ticks, the facing direction reaches
`3.2 > π`. -/
theorem facing_exceeds_pi :
    Real.pi < facingRun (List.replicate 32 ((20:ℝ), (0:ℝ))) := by
  unfold facingRun
  rw [facing_replicate 32 0]
  have h := Real.pi_lt_d2
  norm_num
  linarith

/-- The drift of the facing direction over any run is bounded by `0.1` per
tick. -/
lemma foldl_facing_bound :
    ∀ (l : List (ℝ × ℝ)) (f : ℝ),
      |l.foldl facingTick f - f| ≤ l.length * 0.1 := by
  intro l
  induction l with
  | nil => intro f; simp
  | cons a l ih =>
    intro f
    rw [List.foldl_cons]
    have h1 := ih (facingTick f a)
    have h2 : |facingTick f a - f| ≤ 0.1 := headingStep_sub_abs_le f _
    have h3 := abs_sub_le (l.foldl facingTick (facingTick f a)) (facingTick f a) f
    have hlen : ((a :: l).length : ℝ) * 0.1 = l.length * 0.1 + 0.1 := by
      rw [List.length_cons]; push_cast; ring
    rw [hlen]
    linarith

/-- C2 (amended): `facing_dir` is not normalized into (−π, π] by the code
(no wrap is ever applied to it); what does hold is that, starting from `0`,
after `n` ticks of arbitrary motor inputs its magnitude is at most
`n * 0.1`. -/
theorem facing_bounded_by_ticks (inputs : List (ℝ × ℝ)) :
    |facingRun inputs| ≤ inputs.length * 0.1 := by
  have h := foldl_facing_bound inputs 0
  simpa using h

/-- C7: the change in facing direction produced by one heading-correction
step is bounded in magnitude by `0.1` radians, for every pair of facing and
target directions. -/
theorem heading_step_bounded (facing target : ℝ) :
    |headingStep facing target - facing| ≤ 0.1 :=
  headingStep_sub_abs_le facing target

/-- C8: seam-crossing heading correction.  With `facing_dir = 3.0` and
`target_dir = -3.0` (direct difference `6 > π`), the controller turns
through π: the corrected difference is `6 - 2π < 0`, so the heading moves to
`3.1`, not `2.9`. -/
theorem heading_seam_crossing : headingStep 3 (-3) = 3.1 := by
  have hpi6 : Real.pi < 6 := lt_trans Real.pi_lt_d2 (by norm_num)
  have hpi3 : (3:ℝ) < Real.pi := Real.pi_gt_three
  have habs : |(3:ℝ) - (-3)| > Real.pi := by
    rw [show (3:ℝ) - (-3) = 6 by norm_num,
      abs_of_nonneg (by norm_num : (0:ℝ) ≤ 6)]
    exact hpi6
  have had : angleDiff 3 (-3) = 6 - 2 * Real.pi := by
    unfold angleDiff
    rw [if_pos habs, if_pos (by norm_num : (3:ℝ) > -3)]
    ring
  unfold headingStep
  rw [had, if_neg (by linarith), if_pos (by linarith)]
  norm_num

/-- Python's float modulo for a positive modulus:
`x % w = x - floor(x / w) * w` (src/main.py lines 157-158). -/
noncomputable def wrapCoord (x w : ℝ) : ℝ := x - ⌊x / w⌋ * w

/-- The position update of `WormSimulation.update` (src/main.py lines
154-158): advance the target along the facing direction (canvas y grows
downward) and wrap both coordinates modulo the canvas size. -/
noncomputable def moveTarget (facing speed x y width height : ℝ) : ℝ × ℝ :=
  (wrapCoord (x + Real.cos facing * speed) width,
   wrapCoord (y - Real.sin facing * speed) height)

/-- C4: after the per-tick position update the target lies inside the
canvas: `0 ≤ x < width` and `0 ≤ y < height`, for every facing direction,
speed and previous position, given positive canvas dimensions. -/
theorem toroidal_wrap (facing speed x y width height : ℝ)
    (hw : 0 < width) (hh : 0 < height) :
    0 ≤ (moveTarget facing speed x y width height).1 ∧
    (moveTarget facing speed x y width height).1 < width ∧
    0 ≤ (moveTarget facing speed x y width height).2 ∧
    (moveTarget facing speed x y width height).2 < height := by
  unfold moveTarget wrapCoord
  exact ⟨Int.sub_floor_div_mul_nonneg _ hw, Int.sub_floor_div_mul_lt _ hw,
    Int.sub_floor_div_mul_nonneg _ hh, Int.sub_floor_div_mul_lt _ hh⟩

/-- Witness for C4 at a concrete tick: zero heading and speed from the
origin on a 1×1 canvas. -/
theorem toroidal_wrap_witness :
    (0:ℝ) < 1 ∧
    (0 ≤ (moveTarget 0 0 0 0 1 1).1 ∧ (moveTarget 0 0 0 0 1 1).1 < 1 ∧
     0 ≤ (moveTarget 0 0 0 0 1 1).2 ∧ (moveTarget 0 0 0 0 1 1).2 < 1) :=
  ⟨by norm_num, toroidal_wrap 0 0 0 0 1 1 (by norm_num) (by norm_num)⟩

/-!
The inverse-kinematics chain (src/main.py lines 6-27), in exact real
arithmetic.  `math.atan2(y, x)` is modelled as the argument of the complex
number `x + y*i` (range (−π, π], `atan2(0, 0) = 0`).
-/

/-- A rigid link of the IK chain: fixed length `size`, current `angle` and
current endpoint position (src/main.py lines 6-10). -/
structure IKSegment where
  size : ℝ
  angle : ℝ
  pos : ℝ × ℝ

/-- Model of `math.atan2 y x` as the argument of `x + y*i`. -/
noncomputable def atan2 (y x : ℝ) : ℝ := Complex.arg ⟨x, y⟩

/-- `IKSegment.update` (src/main.py lines 12-17): point the segment at the
target and place its endpoint at exactly `size` from the target, opposite
the pointing direction. -/
noncomputable def IKSegment.update (s : IKSegment) (tx ty : ℝ) : IKSegment :=
  ⟨s.size, atan2 (ty - s.pos.2) (tx - s.pos.1),
   (tx - Real.cos (atan2 (ty - s.pos.2) (tx - s.pos.1)) * s.size,
    ty - Real.sin (atan2 (ty - s.pos.2) (tx - s.pos.1)) * s.size)⟩

/-- The follower loop of `IKChain.update` (src/main.py lines 26-27): each
segment after the head is updated toward the previous segment's new
position. -/
noncomputable def chainFollow (prev : ℝ × ℝ) : List IKSegment → List IKSegment
  | [] => []
  | s :: rest =>
      s.update prev.1 prev.2 :: chainFollow (s.update prev.1 prev.2).pos rest

/-- `IKChain.update` (src/main.py lines 23-27): the head segment's position
is set directly to the target, then the follower loop runs. -/
noncomputable def IKChain.update (target : ℝ × ℝ) :
    List IKSegment → List IKSegment
  | [] => []
  | s :: rest => ⟨s.size, s.angle, target⟩ :: chainFollow target rest

/-- Euclidean distance between two points. -/
noncomputable def distance (p q : ℝ × ℝ) : ℝ :=
  Real.sqrt ((p.1 - q.1) ^ 2 + (p.2 - q.2) ^ 2)

/-- Two consecutive segments are linked when the second sits at exactly its
own length from the first. -/
def linked (p q : IKSegment) : Prop := distance q.pos p.pos = q.size

/-- After an update toward `(tx, ty)`, a segment of nonnegative length sits
at exactly its length from `(tx, ty)` — for every angle, since
`sin² + cos² = 1`. -/
lemma update_distance (s : IKSegment) (tx ty : ℝ) (h : 0 ≤ s.size) :
    distance (s.update tx ty).pos (tx, ty) = s.size := by
  show Real.sqrt
      ((tx - Real.cos (atan2 (ty - s.pos.2) (tx - s.pos.1)) * s.size - tx) ^ 2 +
       (ty - Real.sin (atan2 (ty - s.pos.2) (tx - s.pos.1)) * s.size - ty) ^ 2) =
    s.size
  generalize atan2 (ty - s.pos.2) (tx - s.pos.1) = a
  have key : (tx - Real.cos a * s.size - tx) ^ 2 +
      (ty - Real.sin a * s.size - ty) ^ 2 =
      (Real.sin a ^ 2 + Real.cos a ^ 2) * s.size ^ 2 := by ring
  rw [key, Real.sin_sq_add_cos_sq, one_mul, Real.sqrt_sq h]

/-- The follower loop yields a chain of consecutively linked segments. -/
lemma chainFollow_chain :
    ∀ (segs : List IKSegment) (p0 : IKSegment),
      (∀ s ∈ segs, 0 ≤ s.size) →
      List.Chain linked p0 (chainFollow p0.pos segs) := by
  intro segs
  induction segs with
  | nil =>
    intro p0 _
    exact List.Chain.nil
  | cons s rest ih =>
    intro p0 h
    refine List.Chain.cons ?_ ?_
    · exact update_distance s p0.pos.1 p0.pos.2 (h s (List.mem_cons_self s rest))
    · exact ih (s.update p0.pos.1 p0.pos.2)
        (fun t ht => h t (List.mem_cons_of_mem s ht))

/-- The full updated chain is consecutively linked. -/
lemma chainUpdate_chain (target : ℝ × ℝ) (segs : List IKSegment)
    (hsz : ∀ s ∈ segs, 0 ≤ s.size) :
    List.Chain' linked (IKChain.update target segs) := by
  cases segs with
  | nil => simp [IKChain.update]
  | cons s rest =>
    show List.Chain linked ⟨s.size, s.angle, target⟩ (chainFollow target rest)
    exact chainFollow_chain rest ⟨s.size, s.angle, target⟩
      (fun t ht => hsz t (List.mem_cons_of_mem s ht))

/-- `List.getD` agrees with indexed access below the length. -/
lemma getD_of_lt (l : List IKSegment) (d : IKSegment) (i : ℕ)
    (h : i < l.length) : l.getD i d = l.get ⟨i, h⟩ := by
  rw [List.getD_eq_getElem?_getD, List.getElem?_eq_getElem h]
  rfl

/-- C3: after every `IKChain.update`, every segment past the head sits at
exactly its own length from its predecessor (in exact real arithmetic), for
any target and any prior segment positions, given the chain's nonnegative
segment lengths. -/
theorem ik_link_length (target : ℝ × ℝ) (segs : List IKSegment)
    (d : IKSegment) (hsz : ∀ s ∈ segs, 0 ≤ s.size) (i : ℕ)
    (hi : i + 1 < (IKChain.update target segs).length) :
    distance ((IKChain.update target segs).getD (i + 1) d).pos
        ((IKChain.update target segs).getD i d).pos =
      ((IKChain.update target segs).getD (i + 1) d).size := by
  have hch := chainUpdate_chain target segs hsz
  have hg := List.chain'_iff_get.mp hch i (by omega)
  rw [getD_of_lt _ d (i + 1) hi, getD_of_lt _ d i (by omega)]
  exact hg

/-- Witness for C3: a two-segment chain of length 10 pulled to `(100, 0)`
from the origin. -/
theorem ik_link_length_witness :
    (∀ s ∈ ([⟨10, 0, (0, 0)⟩, ⟨10, 0, (0, 0)⟩] : List IKSegment),
        0 ≤ s.size) ∧
    0 + 1 < (IKChain.update (100, 0)
        [⟨10, 0, (0, 0)⟩, ⟨10, 0, (0, 0)⟩]).length ∧
    distance ((IKChain.update (100, 0)
          [⟨10, 0, (0, 0)⟩, ⟨10, 0, (0, 0)⟩]).getD (0 + 1) ⟨0, 0, (0, 0)⟩).pos
        ((IKChain.update (100, 0)
          [⟨10, 0, (0, 0)⟩, ⟨10, 0, (0, 0)⟩]).getD 0 ⟨0, 0, (0, 0)⟩).pos =
      ((IKChain.update (100, 0)
          [⟨10, 0, (0, 0)⟩, ⟨10, 0, (0, 0)⟩]).getD (0 + 1) ⟨0, 0, (0, 0)⟩).size := by
  have hsz : ∀ s ∈ ([⟨10, 0, (0, 0)⟩, ⟨10, 0, (0, 0)⟩] : List IKSegment),
      0 ≤ s.size := by
    intro s hs
    simp only [List.mem_cons, List.not_mem_nil, or_false] at hs
    rcases hs with h | h <;> subst h <;> norm_num
  have hi : 0 + 1 < (IKChain.update (100, 0)
      [⟨10, 0, (0, 0)⟩, ⟨10, 0, (0, 0)⟩]).length := by
    simp [IKChain.update, chainFollow]
  exact ⟨hsz, hi,
    ik_link_length (100, 0) [⟨10, 0, (0, 0)⟩, ⟨10, 0, (0, 0)⟩]
      ⟨0, 0, (0, 0)⟩ hsz 0 hi⟩

/-- C9: a degenerate `IKSegment.update` whose target equals the segment's
current position computes angle `0` (the model's `atan2 0 0 = 0`, matching
Python's `math.atan2(0, 0) = 0.0`) and places the segment directly left of
the target: `(target.x - size, target.y)`. -/
theorem ik_degenerate_update (s : IKSegment) :
    (s.update s.pos.1 s.pos.2).angle = 0 ∧
    (s.update s.pos.1 s.pos.2).pos = (s.pos.1 - s.size, s.pos.2) := by
  have ha : atan2 (s.pos.2 - s.pos.2) (s.pos.1 - s.pos.1) = 0 := by
    unfold atan2
    rw [show (⟨s.pos.1 - s.pos.1, s.pos.2 - s.pos.2⟩ : ℂ) = 0 by
      apply Complex.ext <;> simp]
    exact Complex.arg_zero
  constructor
  · exact ha
  · show (s.pos.1 - Real.cos (atan2 (s.pos.2 - s.pos.2) (s.pos.1 - s.pos.1)) * s.size,
        s.pos.2 - Real.sin (atan2 (s.pos.2 - s.pos.2) (s.pos.1 - s.pos.1)) * s.size) =
      (s.pos.1 - s.size, s.pos.2)
    rw [ha, Real.cos_zero, Real.sin_zero]
    simp
